import Mathlib

/-!
Shallow embedding of the Vaults repository (src/ciphers.py, src/vault.py).

Byte strings are lists of naturals (each value 0..255 in real executions;
nothing below depends on the bound).  The external cryptographic
primitives — SHA3-256 and the ChaCha20 keystream — are abstract
parameters: SHA3-256 is a function H on byte strings, and the ChaCha20
keystream is a function cks taking a key, a nonce and a byte position to
the keystream byte at that position (a ChaCha20 instance encrypts and
decrypts by XORing its keystream into the data).  The vault's backing
buffer is a byte list with file semantics: reads return at most the
requested number of bytes, writes past the end zero-fill the gap.
-/

namespace Vaults

/-- Byte strings. -/
abbrev Bytes := List Nat

/-- Strip NUL bytes from the front of a byte string. -/
def lstrip0 : Bytes → Bytes
  | [] => []
  | b :: bs => if b = 0 then lstrip0 bs else b :: bs

/-- Python name.strip of NUL bytes: removed from BOTH ends
(vault.py, Record.__init__, line 47). -/
def strip0 (l : Bytes) : Bytes := (lstrip0 (lstrip0 l).reverse).reverse

/-- k little-endian base-256 digits of n. -/
def leBytes : Nat → Nat → Bytes
  | 0, _ => []
  | k + 1, n => n % 256 :: leBytes k (n / 256)

/-- Little-endian decode of a byte string. -/
def leDecode : Bytes → Nat
  | [] => 0
  | b :: bs => b + 256 * leDecode bs

/-- struct '<Q' body: 8 little-endian bytes. -/
def u64le (n : Nat) : Bytes := leBytes 8 n

/-- struct '<q' body: two's complement, 8 little-endian bytes. -/
def i64le (t : Int) : Bytes := leBytes 8 (t % (2 : Int) ^ 64).toNat

/-- struct '<q' decode. -/
def i64decode (bs : Bytes) : Int :=
  if leDecode bs < 2 ^ 63 then (leDecode bs : Int) else (leDecode bs : Int) - 2 ^ 64

/-- struct 's' field: truncate, or right-pad with NUL, to exactly n bytes. -/
def packBytes (n : Nat) (b : Bytes) : Bytes := b.take n ++ List.replicate (n - b.length) 0

/-- One ChaCha20 layer of the composite cipher: its keystream (indexed by
byte position) and the current stream position.  The keystream function
abstracts the external ChaCha20 primitive. -/
structure LayerState where
  ks : Nat → Nat
  pos : Nat

/-- XOR data into the keystream starting at position p: one stream-cipher
call on one layer. -/
def xorKS (ks : Nat → Nat) (p : Nat) : Bytes → Bytes
  | [] => []
  | b :: bs => (b ^^^ ks p) :: xorKS ks (p + 1) bs

/-- Pass data through the layers in index order; every layer's stream
position advances by the length of the data. -/
def runLayers : List LayerState → Bytes → Bytes × List LayerState
  | [], d => (d, [])
  | st :: rest, d =>
    ((runLayers rest (xorKS st.ks st.pos d)).1,
     ⟨st.ks, st.pos + d.length⟩ :: (runLayers rest (xorKS st.ks st.pos d)).2)

/-- ciphers.Cipher: the composite of the per-key layers. -/
structure Cipher where
  layers : List LayerState

/-- Cipher.encrypt (ciphers.py lines 38-41): data passes through the layers
in index order 0..N-1. -/
def Cipher.encrypt (c : Cipher) (d : Bytes) : Bytes × Cipher :=
  ((runLayers c.layers d).1, ⟨(runLayers c.layers d).2⟩)

/-- Cipher.decrypt (ciphers.py lines 42-45): same order; a ChaCha20 layer's
decrypt applies the same keystream XOR as its encrypt. -/
def Cipher.decrypt (c : Cipher) (d : Bytes) : Bytes × Cipher :=
  ((runLayers c.layers d).1, ⟨(runLayers c.layers d).2⟩)

/-- CipherGenerator.gen_keys (ciphers.py lines 17-25): for each salt, hash
password ++ salt with SHA3-256, then re-hash the digest 1000 times; the
key is the final digest.  H abstracts SHA3-256 (a 32-byte digest). -/
def gen_keys (H : Bytes → Bytes) (salts : List Bytes) (pwd : Bytes) : List Bytes :=
  salts.map fun salt => (List.range 1000).foldl (fun h _ => H h) (H (pwd ++ salt))

/-- CipherGenerator.renew (ciphers.py lines 30-33): a fresh ChaCha20
instance per key, all seeded with the same nonce, all at position 0. -/
def renew (cks : Bytes → Bytes → Nat → Nat) (keys : List Bytes) (nonce : Bytes) : Cipher :=
  ⟨keys.map fun k => ⟨cks k nonce, 0⟩⟩

/-- One whole-message encryption with a fresh composite cipher. -/
def encMsg (cks : Bytes → Bytes → Nat → Nat) (keys : List Bytes) (nonce m : Bytes) : Bytes :=
  (Cipher.encrypt (renew cks keys nonce) m).1

/-- One whole-message decryption with a fresh composite cipher. -/
def decMsg (cks : Bytes → Bytes → Nat → Nat) (keys : List Bytes) (nonce m : Bytes) : Bytes :=
  (Cipher.decrypt (renew cks keys nonce) m).1

/-- struct.calcsize of '<12s64sQq' (vault.py lines 40-41). -/
def RECORD_SIZE : Nat := 92

/-- RECORD_SIZE + 12 bytes of record nonce (vault.py line 42). -/
def FULL_SIZE : Nat := RECORD_SIZE + 12

/-- vault.Record: one entry of the record table. -/
structure Record where
  rec_nonce : Bytes
  nonce : Bytes
  name : Bytes
  data_size : Nat
  timestamp : Int
  data_ptr : Nat
deriving DecidableEq

/-- Record.__init__ (vault.py lines 44-51): the name is stripped of NUL
bytes on both ends; data_ptr starts at 0. -/
def Record.make (rec_nonce nonce name : Bytes) (data_size : Nat) (ts : Int) : Record :=
  ⟨rec_nonce, nonce, strip0 name, data_size, ts, 0⟩

/-- Record.delete (vault.py lines 55-57): blank the name, set the timestamp
to the current time. -/
def Record.delete (r : Record) (now : Int) : Record :=
  { r with name := [], timestamp := now }

/-- struct.pack('<12s64sQq', nonce, name, data_size, timestamp): the
92-byte header plaintext. -/
def packFields (nonce name : Bytes) (size : Nat) (ts : Int) : Bytes :=
  packBytes 12 nonce ++ packBytes 64 name ++ u64le size ++ i64le ts

/-- struct.pack raises struct.error when a Q or q value is out of range;
an 's' field never fails (it silently truncates or pads). -/
def structPack (nonce name : Bytes) (size : Nat) (ts : Int) : Option Bytes :=
  if size < 2 ^ 64 ∧ -(2 : Int) ^ 63 ≤ ts ∧ ts < 2 ^ 63 then
    some (packFields nonce name size ts)
  else none

/-- Record.dump (vault.py lines 69-71): the clear record nonce followed by
the encrypted packed header. -/
def Record.dump (cks : Bytes → Bytes → Nat → Nat) (keys : List Bytes) (r : Record) :
    Option Bytes :=
  (structPack r.nonce r.name r.data_size r.timestamp).map fun pt =>
    r.rec_nonce ++ (Cipher.encrypt (renew cks keys r.rec_nonce) pt).1

/-- struct.unpack('<12s64sQq', b): first field. -/
def unpackNonce (b : Bytes) : Bytes := b.take 12

/-- struct.unpack('<12s64sQq', b): second field (the raw 64-byte name). -/
def unpackName (b : Bytes) : Bytes := (b.drop 12).take 64

/-- struct.unpack('<12s64sQq', b): third field. -/
def unpackSize (b : Bytes) : Nat := leDecode ((b.drop 76).take 8)

/-- struct.unpack('<12s64sQq', b): fourth field. -/
def unpackTs (b : Bytes) : Int := i64decode ((b.drop 84).take 8)

/-- Record.load (vault.py lines 63-68): the caller has read the 12-byte
rec_nonce and the 92 encrypted header bytes; ptr is the buffer offset
just after them (buffer.tell()). -/
def Record.load (cks : Bytes → Bytes → Nat → Nat) (keys : List Bytes) (rn hdr : Bytes)
    (ptr : Nat) : Record :=
  { Record.make rn
      (unpackNonce (Cipher.decrypt (renew cks keys rn) hdr).1)
      (unpackName (Cipher.decrypt (renew cks keys rn) hdr).1)
      (unpackSize (Cipher.decrypt (renew cks keys rn) hdr).1)
      (unpackTs (Cipher.decrypt (renew cks keys rn) hdr).1) with
    data_ptr := ptr }

/-- vault.Vault: the record list, the backing buffer, and the derived keys
owned by the vault's CipherGenerator. -/
structure Vault where
  records : List Record
  buffer : Bytes
  keys : List Bytes
deriving DecidableEq

/-- Vault.new / Vault.__init__ with a fresh empty buffer; the keys are
derived from the password. -/
def Vault.new (H : Bytes → Bytes) (salts : List Bytes) (pwd : Bytes) : Vault :=
  ⟨[], [], gen_keys H salts pwd⟩

/-- Vault.count (vault.py lines 147-152). -/
def Vault.count (v : Vault) : Nat := v.records.length

/-- Vault.data_size (vault.py lines 135-140): total bytes of data only. -/
def Vault.data_size (v : Vault) : Nat := (v.records.map Record.data_size).sum

/-- Vault.buffer_end (vault.py lines 153-158): computed from the in-memory
record list only. -/
def Vault.buffer_end (v : Vault) : Nat := v.count * FULL_SIZE + v.data_size

/-- buffer.seek(p) followed by buffer.read(n): at most n bytes. -/
def slice (B : Bytes) (p n : Nat) : Bytes := (B.drop p).take n

/-- buffer.seek(off) followed by buffer.write(d): overwrite in place,
zero-filling any gap past the current end of the file. -/
def bufWrite (B : Bytes) (off : Nat) (d : Bytes) : Bytes :=
  B.take off ++ List.replicate (off - B.length) 0 ++ d ++ B.drop (off + d.length)

/-- The chunk-writing loop of Vault.store_chunks: each chunk is encrypted
with the running cipher and written at base + bytes written so far;
returns the new buffer, the total bytes written, and the cipher state. -/
def writeChunks (B : Bytes) (base w : Nat) (c : Cipher) : List Bytes → Bytes × Nat × Cipher
  | [] => (B, w, c)
  | ch :: rest =>
    writeChunks (bufWrite B (base + w) (c.encrypt ch).1) base (w + ((c.encrypt ch).1).length)
      (c.encrypt ch).2 rest

/-- Vault.store_chunks (vault.py lines 173-194).  The payload nonce, the
record nonce (both os.urandom(12) in the source) and the timestamp are
lifted to parameters.  The payload is written starting at
buffer_end + FULL_SIZE, then the record header is written at buffer_end;
a struct.error from Record.dump aborts the store. -/
def store_chunks (cks : Bytes → Bytes → Nat → Nat) (v : Vault) (chunks : List Bytes)
    (name payN recN : Bytes) (ts : Int) : Option Vault :=
  let rs := v.buffer_end
  let res := writeChunks v.buffer (rs + FULL_SIZE) 0 (renew cks v.keys payN) chunks
  let r0 : Record := Record.make recN payN name res.2.1 ts
  (Record.dump cks v.keys r0).map fun hdr =>
    ⟨v.records ++ [{ r0 with data_ptr := rs + FULL_SIZE }], bufWrite res.1 rs hdr, v.keys⟩

/-- One store operation with its random nonces and timestamp made explicit. -/
structure StoredItem where
  data : Bytes
  name : Bytes
  recN : Bytes
  payN : Bytes
  ts : Int
deriving DecidableEq

/-- Vault.store_item (vault.py lines 195-202): a single chunk. -/
def store_item (cks : Bytes → Bytes → Nat → Nat) (v : Vault) (it : StoredItem) :
    Option Vault :=
  store_chunks cks v [it.data] it.name it.payN it.recN it.ts

/-- A sequence of store_item calls. -/
def storeAll (cks : Bytes → Bytes → Nat → Nat) (v : Vault) : List StoredItem → Option Vault
  | [] => some v
  | it :: rest => (store_item cks v it).bind fun v2 => storeAll cks v2 rest

/-- Vault.read_item (vault.py lines 231-238): look the record up (IndexError
on a bad index), read data_size bytes at data_ptr, decrypt with a fresh
cipher seeded by the record's payload nonce. -/
def read_item (cks : Bytes → Bytes → Nat → Nat) (v : Vault) (i : Nat) : Option Bytes :=
  (v.records[i]?).map fun r =>
    (Cipher.decrypt (renew cks v.keys r.nonce) (slice v.buffer r.data_ptr r.data_size)).1

/-- The loop of Vault.read_chunks: for i in range(j, size, s), seek to
ptr + i and decrypt a read of min s (size - i) bytes with the running
cipher. -/
def chunkLoop (B : Bytes) (ptr size s j : Nat) (c : Cipher) : List Bytes :=
  if h : j < size ∧ 0 < s then
    (c.decrypt (slice B (ptr + j) (min s (size - j)))).1 ::
      chunkLoop B ptr size s (j + s) (c.decrypt (slice B (ptr + j) (min s (size - j)))).2
  else []
termination_by size - j
decreasing_by omega

/-- Vault.read_chunks (vault.py lines 222-230): one cipher instance for the
whole record, data yielded in chunks of at most s bytes; a chunk size of
0 raises ValueError at range(). -/
def read_chunks (cks : Bytes → Bytes → Nat → Nat) (v : Vault) (i s : Nat) :
    Option (List Bytes) :=
  if s = 0 then none
  else (v.records[i]?).map fun r =>
    chunkLoop v.buffer r.data_ptr r.data_size s 0 (renew cks v.keys r.nonce)

/-- The loop of Vault.__load_record_table (vault.py lines 128-133): read 12
bytes; an empty read ends the scan; a read of fewer than 12 bytes, or of
fewer than RECORD_SIZE header bytes, is a short read in the middle of a
record (struct.error); otherwise decode the record, seek to
data_ptr + data_size and continue. -/
def loadAux (cks : Bytes → Bytes → Nat → Nat) (keys : List Bytes) (B : Bytes) (off : Nat)
    (acc : List Record) : Option (List Record) :=
  if hrn : slice B off 12 = [] then some acc
  else if (slice B off 12).length < 12 then none
  else if (slice B (off + 12) RECORD_SIZE).length < RECORD_SIZE then none
  else
    loadAux cks keys B
      (off + FULL_SIZE +
        (Record.load cks keys (slice B off 12) (slice B (off + 12) RECORD_SIZE)
          (off + FULL_SIZE)).data_size)
      (acc ++ [Record.load cks keys (slice B off 12) (slice B (off + 12) RECORD_SIZE)
          (off + FULL_SIZE)])
termination_by B.length - off
decreasing_by
  simp only [slice, List.take_eq_nil_iff, List.drop_eq_nil_iff] at hrn
  push_neg at hrn
  simp only [RECORD_SIZE, FULL_SIZE]
  omega

/-- Vault.__load_record_table, from offset 0 with an empty record list. -/
def load_record_table (cks : Bytes → Bytes → Nat → Nat) (keys : List Bytes) (B : Bytes) :
    Option (List Record) :=
  loadAux cks keys B 0 []

/-- Vault.from_buffer (vault.py lines 90-99): a fresh Vault over the given
buffer whose keys come from the password, with the record table loaded. -/
def from_buffer (cks : Bytes → Bytes → Nat → Nat) (H : Bytes → Bytes) (salts : List Bytes)
    (pwd : Bytes) (B : Bytes) : Option Vault :=
  (load_record_table cks (gen_keys H salts pwd) B).map fun recs =>
    ⟨recs, B, gen_keys H salts pwd⟩

/-- A tombstoning call v.records[i].delete() at the vault level: IndexError
on a bad index, otherwise the record is replaced in place. -/
def tombstone (v : Vault) (i : Nat) (now : Int) : Option Vault :=
  (v.records[i]?).map fun r => { v with records := v.records.set i (r.delete now) }

/-- The record a successful store appends, given the offset it starts at. -/
def mkRecord (it : StoredItem) (off : Nat) : Record :=
  ⟨it.recN, it.payN, strip0 it.name, it.data.length, it.ts, off + FULL_SIZE⟩

/-- The expected record list of a sequence of stores starting at offset off. -/
def expRecs (off : Nat) : List StoredItem → List Record
  | [] => []
  | it :: rest => mkRecord it off :: expRecs (off + FULL_SIZE + it.data.length) rest

/-- The bytes one successful store appends: the dumped header followed by
the encrypted payload. -/
def block (cks : Bytes → Bytes → Nat → Nat) (keys : List Bytes) (it : StoredItem) : Bytes :=
  it.recN ++
    encMsg cks keys it.recN (packFields it.payN (strip0 it.name) it.data.length it.ts) ++
    encMsg cks keys it.payN it.data

/-- The expected buffer contents of a sequence of stores. -/
def expBuf (cks : Bytes → Bytes → Nat → Nat) (keys : List Bytes) : List StoredItem → Bytes
  | [] => []
  | it :: rest => block cks keys it ++ expBuf cks keys rest

/-- The ranges struct.pack('<Qq') accepts: the store succeeds. -/
def itemOk (it : StoredItem) : Prop :=
  it.data.length < 2 ^ 64 ∧ -(2 : Int) ^ 63 ≤ it.ts ∧ it.ts < 2 ^ 63

instance (it : StoredItem) : Decidable (itemOk it) := by
  unfold itemOk
  infer_instance

/-- The record the record-table scan reconstructs for one stored item: the
name field travels through the 64-byte pack and a second NUL strip. -/
def mkRecordLoaded (it : StoredItem) (off : Nat) : Record :=
  ⟨it.recN, it.payN, strip0 (packBytes 64 (strip0 it.name)), it.data.length, it.ts,
    off + FULL_SIZE⟩

/-- The record list the scan reconstructs for a sequence of stores. -/
def expRecsLoaded (off : Nat) : List StoredItem → List Record
  | [] => []
  | it :: rest => mkRecordLoaded it off :: expRecsLoaded (off + FULL_SIZE + it.data.length) rest

/-- Concrete fixture: a position-dependent keystream. -/
def cksW : Bytes → Bytes → Nat → Nat := fun k _ p => (k.headD 0 + p) % 7

/-- Concrete fixture: a stand-in hash. -/
def HW : Bytes → Bytes := fun b => [(b.length + 3) % 256, 5]

/-- Concrete fixture: a salt table of the reference shape (8 entries). -/
def SW : List Bytes := List.replicate 8 [0]

/-- Concrete fixture: the derived keys for the empty password. -/
def keysW : List Bytes := gen_keys HW SW []

/-- Concrete fixture: a small item. -/
def itW : StoredItem := ⟨[1, 2, 3], [66], List.replicate 12 1, List.replicate 12 2, 5⟩

/-- Concrete fixture: an item whose name starts with a NUL byte. -/
def itLead : StoredItem := ⟨[10, 20], [0, 97], List.replicate 12 3, List.replicate 12 4, 7⟩

/-- Concrete fixture: an item whose name is 65 bytes long. -/
def itLong : StoredItem := ⟨[7], List.replicate 65 97, List.replicate 12 1,
  List.replicate 12 2, 0⟩

/-- Concrete fixture: the vault state after storing itLead into a fresh vault. -/
def VLead : Vault := ⟨[mkRecord itLead 0], block cksW keysW itLead, keysW⟩

/-- Concrete fixture: the vault state after storing itLong into a fresh vault. -/
def VLong : Vault := ⟨[mkRecord itLong 0], block cksW keysW itLong, keysW⟩

/-- Concrete fixture: a record for the read lemmas. -/
def rW : Record := ⟨List.replicate 12 0, List.replicate 12 0, [97], 2, 0, 1⟩

/-- Concrete fixture: a vault holding rW over a 3-byte buffer. -/
def vW : Vault := ⟨[rW], [9, 8, 7], [[4]]⟩

/-- Concrete fixture: the 92 encrypted header bytes of a record claiming a
100-byte payload that is absent from the buffer. -/
def c9body : Bytes :=
  encMsg cksW keysW (List.replicate 12 9) (packFields (List.replicate 12 8) [120] 100 0)

/-! ### Stream-cipher algebra -/

theorem length_xorKS (ks : Nat → Nat) : ∀ (p : Nat) (d : Bytes), (xorKS ks p d).length = d.length
  | _, [] => rfl
  | p, b :: bs => by simp [xorKS, length_xorKS ks (p + 1) bs]

theorem xorKS_append (ks : Nat → Nat) :
    ∀ (p : Nat) (a b : Bytes), xorKS ks p (a ++ b) = xorKS ks p a ++ xorKS ks (p + a.length) b
  | _, [], _ => rfl
  | p, x :: xs, b => by
    have h : p + (x :: xs).length = p + 1 + xs.length := by
      simp only [List.length_cons]
      omega
    rw [h]
    show (x ^^^ ks p) :: xorKS ks (p + 1) (xs ++ b) =
      (x ^^^ ks p) :: (xorKS ks (p + 1) xs ++ xorKS ks (p + 1 + xs.length) b)
    rw [xorKS_append ks (p + 1) xs b]

theorem xorKS_comm (k1 k2 : Nat → Nat) :
    ∀ (p1 p2 : Nat) (d : Bytes), xorKS k1 p1 (xorKS k2 p2 d) = xorKS k2 p2 (xorKS k1 p1 d)
  | _, _, [] => rfl
  | p1, p2, b :: bs => by
    simp only [xorKS, xorKS_comm k1 k2 (p1 + 1) (p2 + 1) bs]
    congr 1
    rw [Nat.xor_assoc, Nat.xor_assoc, Nat.xor_comm (k2 p2) (k1 p1)]

theorem xorKS_cancel (ks : Nat → Nat) :
    ∀ (p : Nat) (d : Bytes), xorKS ks p (xorKS ks p d) = d
  | _, [] => rfl
  | p, b :: bs => by
    simp only [xorKS, xorKS_cancel ks (p + 1) bs]
    rw [Nat.xor_assoc, Nat.xor_self, Nat.xor_zero]

theorem runLayers_fst_length (ls : List LayerState) (d : Bytes) :
    (runLayers ls d).1.length = d.length := by
  induction ls generalizing d with
  | nil => rfl
  | cons st rest ih => simp [runLayers, ih, length_xorKS]

theorem runLayers_snd (ls : List LayerState) (d : Bytes) :
    (runLayers ls d).2 = ls.map fun st => ⟨st.ks, st.pos + d.length⟩ := by
  induction ls generalizing d with
  | nil => rfl
  | cons st rest ih => simp [runLayers, ih, length_xorKS]

theorem runLayers_fst_append (ls : List LayerState) (a b : Bytes) :
    (runLayers ls (a ++ b)).1 = (runLayers ls a).1 ++ (runLayers (runLayers ls a).2 b).1 := by
  induction ls generalizing a b with
  | nil => rfl
  | cons st rest ih =>
    simp only [runLayers, xorKS_append, length_xorKS, ih]

theorem runLayers_comm (ls : List LayerState) (k : Nat → Nat) (p : Nat) (d : Bytes) :
    (runLayers ls (xorKS k p d)).1 = xorKS k p (runLayers ls d).1 := by
  induction ls generalizing d with
  | nil => rfl
  | cons st rest ih =>
    simp only [runLayers]
    rw [xorKS_comm st.ks k st.pos p d, ih]

theorem runLayers_cancel (ls : List LayerState) (d : Bytes) :
    (runLayers ls (runLayers ls d).1).1 = d := by
  induction ls generalizing d with
  | nil => rfl
  | cons st rest ih =>
    simp only [runLayers, runLayers_comm, ih, xorKS_cancel]

theorem length_encMsg (cks : Bytes → Bytes → Nat → Nat) (keys : List Bytes) (n m : Bytes) :
    (encMsg cks keys n m).length = m.length := by
  simp [encMsg, Cipher.encrypt, runLayers_fst_length]

theorem decMsg_encMsg (cks : Bytes → Bytes → Nat → Nat) (keys : List Bytes) (n m : Bytes) :
    decMsg cks keys n (encMsg cks keys n m) = m := by
  simp [encMsg, decMsg, Cipher.encrypt, Cipher.decrypt, runLayers_cancel]

/-! ### Byte-string and buffer lemmas -/

theorem take_append_len (a b : Bytes) (n : Nat) (h : a.length = n) : (a ++ b).take n = a := by
  rw [← h]
  exact List.take_left a b

theorem drop_append_len (a b : Bytes) (n : Nat) (h : a.length = n) : (a ++ b).drop n = b := by
  rw [← h]
  exact List.drop_left a b

theorem drop_add_append (a b : Bytes) (n k : Nat) (h : a.length = n) :
    (a ++ b).drop (n + k) = b.drop k := by
  rw [← List.drop_drop, drop_append_len a b n h]

theorem slice_nil_len (B : Bytes) (p : Nat) : slice B p 0 = [] := by
  simp [slice]

theorem slice_of_le (B : Bytes) (p n : Nat) (h : B.length ≤ p) : slice B p n = [] := by
  simp [slice, List.drop_eq_nil_of_le h]

theorem slice_append_start (a b : Bytes) (p n : Nat) (h : a.length = p) :
    slice (a ++ b) p n = b.take n := by
  rw [slice, ← h, List.drop_left]

theorem slice_split (B : Bytes) (p m n : Nat) (h : m ≤ n) :
    slice B p n = slice B p m ++ slice B (p + m) (n - m) := by
  simp only [slice]
  rw [← List.drop_drop m p B]
  conv_lhs => rw [show n = m + (n - m) by omega]
  exact List.take_add _ m (n - m)

theorem slice_prefix (a b : Bytes) (p n : Nat) (h : p + n ≤ a.length) :
    slice (a ++ b) p n = slice a p n := by
  rw [slice, slice, List.drop_append_of_le_length (by omega),
    List.take_append_of_le_length (by simp only [List.length_drop]; omega)]

theorem bufWrite_at_end (B d : Bytes) : bufWrite B B.length d = B ++ d := by
  simp [bufWrite, List.take_of_length_le (le_refl B.length),
    List.drop_eq_nil_of_le (by omega : B.length ≤ B.length + d.length)]

theorem bufWrite_past_end (B d : Bytes) (k : Nat) :
    bufWrite B (B.length + k) d = B ++ List.replicate k 0 ++ d := by
  simp [bufWrite, List.take_of_length_le (by omega : B.length ≤ B.length + k),
    List.drop_eq_nil_of_le (by omega : B.length ≤ B.length + k + d.length), List.append_assoc]

theorem bufWrite_overwrite (B mid rest h : Bytes) (hlen : h.length = mid.length) :
    bufWrite (B ++ mid ++ rest) B.length h = B ++ h ++ rest := by
  rw [bufWrite, List.append_assoc B mid rest, take_append_len B (mid ++ rest) B.length rfl,
    drop_add_append B (mid ++ rest) B.length h.length rfl, hlen,
    drop_append_len mid rest mid.length rfl]
  have : B.length - (B ++ (mid ++ rest)).length = 0 := by
    simp [List.length_append]
  rw [this]
  simp [List.append_assoc]

theorem length_leBytes : ∀ (k n : Nat), (leBytes k n).length = k
  | 0, _ => rfl
  | k + 1, n => by simp [leBytes, length_leBytes k (n / 256)]

theorem leDecode_leBytes : ∀ (k n : Nat), leDecode (leBytes k n) = n % 256 ^ k
  | 0, n => by simp [leBytes, leDecode, Nat.mod_one]
  | k + 1, n => by
    rw [leBytes, leDecode, leDecode_leBytes k (n / 256), pow_succ, mul_comm (256 ^ k) 256,
      Nat.mod_mul]

theorem leDecode_u64 (n : Nat) (h : n < 2 ^ 64) : leDecode (u64le n) = n := by
  have h2 : (256 : Nat) ^ 8 = 2 ^ 64 := by norm_num
  rw [u64le, leDecode_leBytes, h2, Nat.mod_eq_of_lt h]

theorem i64_roundtrip (t : Int) (h1 : -(2 : Int) ^ 63 ≤ t) (h2 : t < 2 ^ 63) :
    i64decode (i64le t) = t := by
  have e0 : (0 : Int) < (2 : Int) ^ 64 := by norm_num
  have e1 : 0 ≤ t % (2 : Int) ^ 64 := Int.emod_nonneg t (by norm_num)
  have e2 : t % (2 : Int) ^ 64 < (2 : Int) ^ 64 := Int.emod_lt_of_pos t e0
  have e3 : t % (2 : Int) ^ 64 + (2 : Int) ^ 64 * (t / (2 : Int) ^ 64) = t :=
    Int.emod_add_ediv t ((2 : Int) ^ 64)
  have e4 : leDecode (i64le t) = (t % (2 : Int) ^ 64).toNat := by
    have h8 : (256 : Nat) ^ 8 = 2 ^ 64 := by norm_num
    rw [i64le, leDecode_leBytes, h8, Nat.mod_eq_of_lt (by omega)]
  rw [i64decode, e4]
  split
  · omega
  · omega

theorem length_packBytes (n : Nat) (b : Bytes) : (packBytes n b).length = n := by
  simp only [packBytes, List.length_append, List.length_take, List.length_replicate]
  omega

theorem packBytes_self (n : Nat) (b : Bytes) (h : b.length = n) : packBytes n b = b := by
  simp [packBytes, h, List.take_of_length_le (le_of_eq h)]

theorem packBytes_of_le (n : Nat) (b : Bytes) (h : b.length ≤ n) :
    packBytes n b = b ++ List.replicate (n - b.length) 0 := by
  simp [packBytes, List.take_of_length_le h]

theorem length_packFields (nonce name : Bytes) (size : Nat) (ts : Int) :
    (packFields nonce name size ts).length = RECORD_SIZE := by
  simp [packFields, length_packBytes, length_leBytes, u64le, i64le, RECORD_SIZE]

theorem unpack_pack_nonce (nonce name : Bytes) (size : Nat) (ts : Int) (h : nonce.length = 12) :
    unpackNonce (packFields nonce name size ts) = nonce := by
  rw [unpackNonce, packFields, List.append_assoc, List.append_assoc,
    take_append_len (packBytes 12 nonce) _ 12 (length_packBytes 12 nonce),
    packBytes_self 12 nonce h]

theorem unpack_pack_name (nonce name : Bytes) (size : Nat) (ts : Int) :
    unpackName (packFields nonce name size ts) = packBytes 64 name := by
  rw [unpackName, packFields, List.append_assoc, List.append_assoc,
    drop_append_len (packBytes 12 nonce) _ 12 (length_packBytes 12 nonce),
    take_append_len (packBytes 64 name) _ 64 (length_packBytes 64 name)]

theorem unpack_pack_size (nonce name : Bytes) (size : Nat) (ts : Int) (h : size < 2 ^ 64) :
    unpackSize (packFields nonce name size ts) = size := by
  rw [unpackSize, packFields, List.append_assoc, List.append_assoc,
    show (76 : Nat) = 12 + 64 from rfl,
    drop_add_append (packBytes 12 nonce) _ 12 64 (length_packBytes 12 nonce),
    drop_append_len (packBytes 64 name) _ 64 (length_packBytes 64 name),
    take_append_len (u64le size) _ 8 (by simp [u64le, length_leBytes]),
    leDecode_u64 size h]

theorem unpack_pack_ts (nonce name : Bytes) (size : Nat) (ts : Int)
    (h1 : -(2 : Int) ^ 63 ≤ ts) (h2 : ts < 2 ^ 63) :
    unpackTs (packFields nonce name size ts) = ts := by
  rw [unpackTs, packFields, List.append_assoc, List.append_assoc,
    show (84 : Nat) = 12 + 72 from rfl,
    drop_add_append (packBytes 12 nonce) _ 12 72 (length_packBytes 12 nonce),
    show (72 : Nat) = 64 + 8 from rfl,
    drop_add_append (packBytes 64 name) _ 64 8 (length_packBytes 64 name),
    drop_append_len (u64le size) _ 8 (by simp [u64le, length_leBytes]),
    List.take_of_length_le (by simp [i64le, length_leBytes]),
    i64_roundtrip ts h1 h2]

/-! ### NUL stripping -/

theorem lstrip0_head : ∀ (l : Bytes) (x : Nat) (t : Bytes), lstrip0 l = x :: t → x ≠ 0
  | [], x, t, h => by simp [lstrip0] at h
  | b :: bs, x, t, h => by
    by_cases hb : b = 0
    · exact lstrip0_head bs x t (by simpa [lstrip0, hb] using h)
    · rw [lstrip0, if_neg hb] at h
      injection h with h1 h2
      exact fun h0 => hb (h1.trans h0)

theorem lstrip0_cons_ne (x : Nat) (t : Bytes) (h : x ≠ 0) : lstrip0 (x :: t) = x :: t := by
  rw [lstrip0, if_neg h]

theorem lstrip0_decomp : ∀ l : Bytes, ∃ k, l = List.replicate k 0 ++ lstrip0 l
  | [] => ⟨0, rfl⟩
  | b :: bs => by
    by_cases hb : b = 0
    · obtain ⟨k, hk⟩ := lstrip0_decomp bs
      refine ⟨k + 1, ?_⟩
      rw [lstrip0, if_pos hb, List.replicate_succ, List.cons_append, hb, ← hk]
    · exact ⟨0, by rw [lstrip0, if_neg hb]; rfl⟩

theorem lstrip0_replicate_append :
    ∀ (k : Nat) (w : Bytes), lstrip0 (List.replicate k 0 ++ w) = lstrip0 w
  | 0, w => rfl
  | k + 1, w => by
    rw [List.replicate_succ, List.cons_append, lstrip0, if_pos rfl]
    exact lstrip0_replicate_append k w

theorem lstrip0_replicate (k : Nat) : lstrip0 (List.replicate k 0) = [] := by
  have h := lstrip0_replicate_append k []
  simpa using h

theorem strip0_append_replicate (l : Bytes) (k : Nat) :
    strip0 (l ++ List.replicate k 0) = strip0 l := by
  obtain ⟨j, hj⟩ := lstrip0_decomp l
  have e1 : lstrip0 (l ++ List.replicate k 0) = lstrip0 (lstrip0 l ++ List.replicate k 0) := by
    conv_lhs => rw [hj]
    rw [List.append_assoc, lstrip0_replicate_append]
  rcases hu : lstrip0 l with _ | ⟨x, t⟩
  · simp only [strip0]
    rw [e1, hu]
    simp [lstrip0_replicate, lstrip0]
  · have hx : x ≠ 0 := lstrip0_head l x t hu
    have e2 : lstrip0 (lstrip0 l ++ List.replicate k 0) = lstrip0 l ++ List.replicate k 0 := by
      rw [hu, List.cons_append]
      exact lstrip0_cons_ne x _ hx
    simp only [strip0]
    rw [e1, e2, List.reverse_append, List.reverse_replicate, lstrip0_replicate_append]

theorem lstrip0_idem : ∀ l : Bytes, lstrip0 (lstrip0 l) = lstrip0 l
  | [] => rfl
  | b :: bs => by
    by_cases hb : b = 0
    · rw [lstrip0, if_pos hb]
      exact lstrip0_idem bs
    · rw [lstrip0_cons_ne b bs hb, lstrip0_cons_ne b bs hb]

theorem strip0_head (l : Bytes) (x : Nat) (t : Bytes) (h : strip0 l = x :: t) : x ≠ 0 := by
  obtain ⟨j, hj⟩ := lstrip0_decomp (lstrip0 l).reverse
  have h2 := congrArg List.reverse hj
  rw [List.reverse_reverse, List.reverse_append, List.reverse_replicate] at h2
  have h3 : (lstrip0 (lstrip0 l).reverse).reverse = strip0 l := rfl
  rw [h3, h, List.cons_append] at h2
  exact lstrip0_head l x (t ++ List.replicate j 0) h2

theorem strip0_strip0 (l : Bytes) : strip0 (strip0 l) = strip0 l := by
  have hB : (strip0 l).reverse = lstrip0 (lstrip0 l).reverse := by
    rw [strip0, List.reverse_reverse]
  have hA : lstrip0 (strip0 l) = strip0 l := by
    rcases hm : strip0 l with _ | ⟨x, t⟩
    · rfl
    · exact lstrip0_cons_ne x t (strip0_head l x t hm)
  rw [strip0, hA, hB, lstrip0_idem, ← hB, List.reverse_reverse]

theorem lstrip0_length_le : ∀ l : Bytes, (lstrip0 l).length ≤ l.length
  | [] => le_refl 0
  | b :: bs => by
    by_cases hb : b = 0
    · rw [lstrip0, if_pos hb]
      exact le_trans (lstrip0_length_le bs) (by simp)
    · rw [lstrip0, if_neg hb]

theorem strip0_length_le (l : Bytes) : (strip0 l).length ≤ l.length := by
  rw [strip0, List.length_reverse]
  calc (lstrip0 (lstrip0 l).reverse).length ≤ (lstrip0 l).reverse.length :=
        lstrip0_length_le (lstrip0 l).reverse
    _ = (lstrip0 l).length := List.length_reverse (lstrip0 l)
    _ ≤ l.length := lstrip0_length_le l

theorem strip0_pad (name : Bytes) (h : (strip0 name).length ≤ 64) :
    strip0 (packBytes 64 (strip0 name)) = strip0 name := by
  rw [packBytes_of_le 64 (strip0 name) h, strip0_append_replicate, strip0_strip0]

/-! ### Store and read machinery -/

theorem runLayers_nil : ∀ ls : List LayerState, runLayers ls [] = ([], ls)
  | [] => rfl
  | st :: rest => by simp [runLayers, xorKS, runLayers_nil rest]

theorem decrypt_fst_append (c : Cipher) (x y : Bytes) :
    (c.decrypt (x ++ y)).1 = (c.decrypt x).1 ++ ((c.decrypt x).2.decrypt y).1 := by
  simp only [Cipher.decrypt]
  exact runLayers_fst_append c.layers x y

theorem length_block (cks : Bytes → Bytes → Nat → Nat) (keys : List Bytes) (it : StoredItem)
    (hrn : it.recN.length = 12) :
    (block cks keys it).length = FULL_SIZE + it.data.length := by
  simp only [block, List.length_append, hrn, length_encMsg, length_packFields, RECORD_SIZE,
    FULL_SIZE]

theorem buffer_end_push (v : Vault) (r : Record) (B2 : Bytes) (K2 : List Bytes) :
    Vault.buffer_end ⟨v.records ++ [r], B2, K2⟩ = v.buffer_end + FULL_SIZE + r.data_size := by
  simp only [Vault.buffer_end, Vault.count, Vault.data_size, List.length_append,
    List.map_append, List.sum_append, List.length_cons, List.length_nil, List.map_cons,
    List.map_nil, List.sum_cons, List.sum_nil, FULL_SIZE, RECORD_SIZE]
  omega

theorem store_item_step (cks : Bytes → Bytes → Nat → Nat) (v : Vault) (it : StoredItem)
    (hv : v.buffer.length = v.buffer_end) (hok : itemOk it) (hrn : it.recN.length = 12) :
    store_item cks v it =
      some ⟨v.records ++ [mkRecord it v.buffer_end],
        v.buffer ++ block cks v.keys it, v.keys⟩ := by
  have hct : ((Cipher.encrypt (renew cks v.keys it.payN) it.data).1).length = it.data.length :=
    length_encMsg cks v.keys it.payN it.data
  have h92 : ((Cipher.encrypt (renew cks v.keys it.recN)
      (packFields it.payN (strip0 it.name) it.data.length it.ts)).1).length = RECORD_SIZE := by
    have h := length_encMsg cks v.keys it.recN
      (packFields it.payN (strip0 it.name) it.data.length it.ts)
    rw [encMsg] at h
    rw [h, length_packFields]
  have hhdr : (it.recN ++
      (Cipher.encrypt (renew cks v.keys it.recN)
        (packFields it.payN (strip0 it.name) it.data.length it.ts)).1).length =
      (List.replicate FULL_SIZE (0 : Nat)).length := by
    simp only [List.length_append, List.length_replicate, hrn, h92]
    rfl
  rw [store_item, store_chunks]
  simp only [writeChunks, Nat.add_zero, Nat.zero_add, Record.dump, Record.make, structPack, hct,
    if_pos (show it.data.length < 2 ^ 64 ∧ -(2 : Int) ^ 63 ≤ it.ts ∧ it.ts < 2 ^ 63 from hok),
    Option.map_some']
  rw [← hv, bufWrite_past_end v.buffer _ FULL_SIZE,
    bufWrite_overwrite v.buffer (List.replicate FULL_SIZE 0)
      (Cipher.encrypt (renew cks v.keys it.payN) it.data).1
      (it.recN ++
        (Cipher.encrypt (renew cks v.keys it.recN)
          (packFields it.payN (strip0 it.name) it.data.length it.ts)).1) hhdr]
  simp only [mkRecord, block, encMsg, List.append_assoc]

theorem storeAll_spec (cks : Bytes → Bytes → Nat → Nat) :
    ∀ (items : List StoredItem) (v : Vault),
      v.buffer.length = v.buffer_end →
      (∀ it ∈ items, itemOk it ∧ it.recN.length = 12) →
      storeAll cks v items =
        some ⟨v.records ++ expRecs v.buffer_end items,
          v.buffer ++ expBuf cks v.keys items, v.keys⟩
  | [], v, hv, hits => by
    simp only [storeAll, expRecs, expBuf, List.append_nil]
  | it :: rest, v, hv, hits => by
    obtain ⟨hok, hrn⟩ := hits it (List.mem_cons_self it rest)
    rw [storeAll, store_item_step cks v it hv hok hrn, Option.some_bind]
    have hv2 : (Vault.mk (v.records ++ [mkRecord it v.buffer_end])
        (v.buffer ++ block cks v.keys it) v.keys).buffer.length =
        (Vault.mk (v.records ++ [mkRecord it v.buffer_end])
          (v.buffer ++ block cks v.keys it) v.keys).buffer_end := by
      rw [buffer_end_push v (mkRecord it v.buffer_end) _ v.keys]
      simp only [List.length_append, length_block cks v.keys it hrn, hv, mkRecord]
      omega
    rw [storeAll_spec cks rest _ hv2 (fun x hx => hits x (List.mem_cons_of_mem it hx))]
    have hbe2 : (Vault.mk (v.records ++ [mkRecord it v.buffer_end])
        (v.buffer ++ block cks v.keys it) v.keys).buffer_end =
        v.buffer_end + FULL_SIZE + it.data.length := by
      rw [buffer_end_push v (mkRecord it v.buffer_end) _ v.keys]
      rfl
    rw [hbe2]
    simp only [expRecs, expBuf, List.append_assoc, List.singleton_append]

theorem read_exp (cks : Bytes → Bytes → Nat → Nat) (keys : List Bytes) :
    ∀ (items : List StoredItem) (pre : Bytes) (R0 : List Record),
      (∀ it ∈ items, it.recN.length = 12) →
      ∀ (k : Nat) (hk : k < items.length),
      read_item cks ⟨R0 ++ expRecs pre.length items, pre ++ expBuf cks keys items, keys⟩
        (R0.length + k) = some (items.get ⟨k, hk⟩).data
  | [], pre, R0, hits, k, hk => absurd hk (by simp)
  | it :: rest, pre, R0, hits, 0, hk => by
    have hrn : it.recN.length = 12 := hits it (List.mem_cons_self it rest)
    have hx2 : (encMsg cks keys it.recN
        (packFields it.payN (strip0 it.name) it.data.length it.ts)).length = RECORD_SIZE := by
      rw [length_encMsg, length_packFields]
    have hA : (pre ++ (it.recN ++ encMsg cks keys it.recN
        (packFields it.payN (strip0 it.name) it.data.length it.ts))).length =
        pre.length + FULL_SIZE := by
      simp only [List.length_append, hrn, hx2, FULL_SIZE, RECORD_SIZE]
    have hsl2 : slice (pre ++ expBuf cks keys (it :: rest)) (pre.length + FULL_SIZE)
        it.data.length = encMsg cks keys it.payN it.data := by
      have hshape : pre ++ expBuf cks keys (it :: rest) =
          (pre ++ (it.recN ++ encMsg cks keys it.recN
            (packFields it.payN (strip0 it.name) it.data.length it.ts))) ++
          (encMsg cks keys it.payN it.data ++ expBuf cks keys rest) := by
        rw [expBuf, block]
        simp only [List.append_assoc]
      rw [hshape, slice_append_start _ _ _ _ hA,
        take_append_len _ _ _ (length_encMsg cks keys it.payN it.data)]
    have hrec : (R0 ++ expRecs pre.length (it :: rest))[R0.length + 0]? =
        some (mkRecord it pre.length) := by
      rw [Nat.add_zero, List.getElem?_append_right (le_refl R0.length), Nat.sub_self, expRecs,
        List.getElem?_cons_zero]
    simp only [read_item]
    rw [hrec, Option.map_some']
    simp only [mkRecord]
    rw [hsl2]
    have hd := decMsg_encMsg cks keys it.payN it.data
    rw [decMsg] at hd
    rw [hd]
    rfl
  | it :: rest, pre, R0, hits, k + 1, hk => by
    have hrn : it.recN.length = 12 := hits it (List.mem_cons_self it rest)
    have hres := read_exp cks keys rest (pre ++ block cks keys it)
      (R0 ++ [mkRecord it pre.length])
      (fun x hx => hits x (List.mem_cons_of_mem it hx)) k (Nat.lt_of_succ_lt_succ hk)
    rw [List.length_append, length_block cks keys it hrn] at hres
    have e1 : pre.length + (FULL_SIZE + it.data.length) =
        pre.length + FULL_SIZE + it.data.length := by omega
    rw [e1] at hres
    have e2 : (R0 ++ [mkRecord it pre.length]).length + k = R0.length + (k + 1) := by
      simp only [List.length_append, List.length_cons, List.length_nil]
      omega
    rw [e2] at hres
    rw [show R0 ++ expRecs pre.length (it :: rest) =
        (R0 ++ [mkRecord it pre.length]) ++
          expRecs (pre.length + FULL_SIZE + it.data.length) rest by
      rw [expRecs, List.append_cons],
      show pre ++ expBuf cks keys (it :: rest) =
        (pre ++ block cks keys it) ++ expBuf cks keys rest by
      rw [expBuf, List.append_assoc]]
    exact hres

theorem load_expL (cks : Bytes → Bytes → Nat → Nat) (keys : List Bytes) :
    ∀ (items : List StoredItem) (B : Bytes) (off : Nat) (acc : List Record),
      B.drop off = expBuf cks keys items →
      (∀ it ∈ items, it.recN.length = 12 ∧ it.payN.length = 12 ∧ itemOk it) →
      loadAux cks keys B off acc = some (acc ++ expRecsLoaded off items)
  | [], B, off, acc, hdrop, hits => by
    rw [loadAux]
    have h1 : slice B off 12 = [] := by
      rw [slice, hdrop, expBuf]
      rfl
    rw [dif_pos h1, expRecsLoaded, List.append_nil]
  | it :: rest, B, off, acc, hdrop, hits => by
    obtain ⟨hrn, hpn, hok⟩ := hits it (List.mem_cons_self it rest)
    have hx2 : (encMsg cks keys it.recN
        (packFields it.payN (strip0 it.name) it.data.length it.ts)).length = RECORD_SIZE := by
      rw [length_encMsg, length_packFields]
    have hstep : B.drop off = it.recN ++ (encMsg cks keys it.recN
        (packFields it.payN (strip0 it.name) it.data.length it.ts) ++
        (encMsg cks keys it.payN it.data ++ expBuf cks keys rest)) := by
      rw [hdrop, expBuf, block]
      simp only [List.append_assoc]
    have h_rn : slice B off 12 = it.recN := by
      rw [slice, hstep, take_append_len _ _ _ hrn]
    have h_ne : ¬ slice B off 12 = [] := by
      rw [h_rn]
      intro h0
      rw [h0] at hrn
      exact absurd hrn (by decide)
    have hc2 : ¬ (slice B off 12).length < 12 := by
      rw [h_rn, hrn]
      omega
    have h_hdr : slice B (off + 12) RECORD_SIZE = encMsg cks keys it.recN
        (packFields it.payN (strip0 it.name) it.data.length it.ts) := by
      rw [slice, ← List.drop_drop 12 off B, hstep, drop_append_len _ _ _ hrn,
        take_append_len _ _ _ hx2]
    have hc3 : ¬ (slice B (off + 12) RECORD_SIZE).length < RECORD_SIZE := by
      rw [h_hdr, hx2]
      omega
    have h_load : Record.load cks keys (slice B off 12) (slice B (off + 12) RECORD_SIZE)
        (off + FULL_SIZE) = mkRecordLoaded it off := by
      rw [h_rn, h_hdr]
      simp only [Record.load]
      have hdec := decMsg_encMsg cks keys it.recN
        (packFields it.payN (strip0 it.name) it.data.length it.ts)
      rw [decMsg] at hdec
      rw [hdec, unpack_pack_nonce _ _ _ _ hpn, unpack_pack_name,
        unpack_pack_size _ _ _ _ hok.1, unpack_pack_ts _ _ _ _ hok.2.1 hok.2.2]
      simp only [Record.make, mkRecordLoaded]
    have hdrop2 : B.drop (off + FULL_SIZE + it.data.length) = expBuf cks keys rest := by
      have e : off + FULL_SIZE + it.data.length = off + (FULL_SIZE + it.data.length) := by omega
      rw [e, ← List.drop_drop (FULL_SIZE + it.data.length) off B, hstep]
      have e2 : FULL_SIZE + it.data.length = 12 + (RECORD_SIZE + it.data.length) := by
        simp only [FULL_SIZE, RECORD_SIZE]
        omega
      rw [e2, drop_add_append _ _ _ _ hrn, drop_add_append _ _ _ _ hx2,
        drop_append_len _ _ _ (length_encMsg cks keys it.payN it.data)]
    rw [loadAux, dif_neg h_ne, if_neg hc2, if_neg hc3, h_load]
    have hsize : (mkRecordLoaded it off).data_size = it.data.length := rfl
    rw [hsize]
    rw [load_expL cks keys rest B (off + FULL_SIZE + it.data.length)
      (acc ++ [mkRecordLoaded it off]) hdrop2 (fun x hx => hits x (List.mem_cons_of_mem it hx)),
      expRecsLoaded]
    simp only [List.append_assoc, List.singleton_append]

theorem expRecsLoaded_eq : ∀ (off : Nat) (items : List StoredItem),
    (∀ it ∈ items, (strip0 it.name).length ≤ 64) →
    expRecsLoaded off items = expRecs off items
  | _, [], _ => rfl
  | off, it :: rest, h => by
    rw [expRecsLoaded, expRecs,
      expRecsLoaded_eq _ rest (fun x hx => h x (List.mem_cons_of_mem it hx))]
    rw [mkRecordLoaded, mkRecord, strip0_pad it.name (h it (List.mem_cons_self it rest))]

theorem load_exp (cks : Bytes → Bytes → Nat → Nat) (keys : List Bytes)
    (items : List StoredItem) (B : Bytes) (off : Nat) (acc : List Record)
    (hdrop : B.drop off = expBuf cks keys items)
    (hits : ∀ it ∈ items, it.recN.length = 12 ∧ it.payN.length = 12 ∧ itemOk it ∧
      (strip0 it.name).length ≤ 64) :
    loadAux cks keys B off acc = some (acc ++ expRecs off items) := by
  rw [load_expL cks keys items B off acc hdrop
      (fun x hx => ⟨(hits x hx).1, (hits x hx).2.1, (hits x hx).2.2.1⟩),
    expRecsLoaded_eq off items (fun x hx => (hits x hx).2.2.2)]

theorem store_new (cks : Bytes → Bytes → Nat → Nat) (H : Bytes → Bytes) (salts : List Bytes)
    (pwd : Bytes) (it : StoredItem) (hok : itemOk it) (h12 : it.recN.length = 12) :
    store_item cks (Vault.new H salts pwd) it =
      some ⟨[mkRecord it 0], block cks (gen_keys H salts pwd) it, gen_keys H salts pwd⟩ := by
  have hs := store_item_step cks (Vault.new H salts pwd) it rfl hok h12
  simpa [Vault.new, Vault.buffer_end, Vault.count, Vault.data_size] using hs

theorem storeAll_new (cks : Bytes → Bytes → Nat → Nat) (H : Bytes → Bytes) (salts : List Bytes)
    (pwd : Bytes) (items : List StoredItem)
    (hits : ∀ it ∈ items, itemOk it ∧ it.recN.length = 12) :
    storeAll cks (Vault.new H salts pwd) items =
      some ⟨expRecs 0 items, expBuf cks (gen_keys H salts pwd) items, gen_keys H salts pwd⟩ := by
  have hs := storeAll_spec cks items (Vault.new H salts pwd) rfl hits
  simpa [Vault.new, Vault.buffer_end, Vault.count, Vault.data_size] using hs

theorem buffer_end_eq_sum (v : Vault) :
    v.buffer_end = (v.records.map (fun r => FULL_SIZE + r.data_size)).sum := by
  rw [Vault.buffer_end, Vault.count, Vault.data_size]
  induction v.records with
  | nil => rfl
  | cons r R ih =>
    simp only [List.length_cons, List.map_cons, List.sum_cons, FULL_SIZE, RECORD_SIZE] at *
    omega

theorem load_single (cks : Bytes → Bytes → Nat → Nat) (keys : List Bytes) (rn body : Bytes)
    (h12 : rn.length = 12) (h92 : body.length = RECORD_SIZE) :
    load_record_table cks keys (rn ++ body) =
      some [Record.load cks keys rn body FULL_SIZE] := by
  have h_rn : slice (rn ++ body) 0 12 = rn := by
    rw [slice, List.drop_zero, take_append_len _ _ _ h12]
  have h_ne : ¬ slice (rn ++ body) 0 12 = [] := by
    rw [h_rn]
    intro h0
    rw [h0] at h12
    exact absurd h12 (by decide)
  have hc2 : ¬ (slice (rn ++ body) 0 12).length < 12 := by
    rw [h_rn, h12]
    omega
  have h_hdr : slice (rn ++ body) (0 + 12) RECORD_SIZE = body := by
    rw [slice, show (0 + 12 : Nat) = 12 from rfl, drop_append_len _ _ _ h12,
      List.take_of_length_le (le_of_eq h92)]
  have hc3 : ¬ (slice (rn ++ body) (0 + 12) RECORD_SIZE).length < RECORD_SIZE := by
    rw [h_hdr, h92]
    omega
  rw [load_record_table, loadAux, dif_neg h_ne, if_neg hc2, if_neg hc3, h_rn, h_hdr, loadAux]
  have hlen : (rn ++ body).length = FULL_SIZE := by
    rw [List.length_append, h12, h92]
    rfl
  have h1 : slice (rn ++ body)
      (0 + FULL_SIZE + (Record.load cks keys rn body (0 + FULL_SIZE)).data_size) 12 = [] := by
    apply slice_of_le
    rw [hlen]
    omega
  rw [dif_pos h1, List.nil_append, Nat.zero_add]

theorem decrypt_nil (c : Cipher) : c.decrypt [] = ([], c) := by
  rw [Cipher.decrypt, runLayers_nil]

theorem chunkLoop_flatten (B : Bytes) (ptr size s : Nat) (hs : 0 < s) :
    ∀ (n j : Nat) (c : Cipher), size - j ≤ n →
      (chunkLoop B ptr size s j c).flatten = (c.decrypt (slice B (ptr + j) (size - j))).1
  | 0, j, c, hn => by
    have hj : ¬ (j < size ∧ 0 < s) := by omega
    rw [chunkLoop, dif_neg hj, show size - j = 0 by omega, slice_nil_len, decrypt_nil]
    rfl
  | n + 1, j, c, hn => by
    by_cases hj : j < size
    · rw [chunkLoop, dif_pos (And.intro hj hs), List.flatten_cons,
        chunkLoop_flatten B ptr size s hs n (j + s) _ (by omega),
        slice_split B (ptr + j) (min s (size - j)) (size - j) (Nat.min_le_right s (size - j)),
        decrypt_fst_append]
      congr 1
      by_cases hcase : s ≤ size - j
      · rw [Nat.min_eq_left hcase, show ptr + j + s = ptr + (j + s) by omega,
          show size - j - s = size - (j + s) by omega]
      · rw [show size - (j + s) = 0 by omega, slice_nil_len, decrypt_nil,
          show min s (size - j) = size - j by omega,
          show size - j - (size - j) = 0 by omega, slice_nil_len, decrypt_nil]
    · rw [chunkLoop, dif_neg (by omega : ¬ (j < size ∧ 0 < s)),
        show size - j = 0 by omega, slice_nil_len, decrypt_nil]
      rfl

/-! ### The claims -/

/-- C1: for every password and every finite sequence of byte strings stored
in order into a fresh vault via store_item (each with 12-byte random nonces
and a representable size and timestamp, as every real store has),
read_item(k) returns exactly the k-th original byte string, for every index
k, including empty byte strings. -/
theorem c1_round_trip (cks : Bytes → Bytes → Nat → Nat) (H : Bytes → Bytes)
    (salts : List Bytes) (pwd : Bytes) (items : List StoredItem)
    (hits : ∀ it ∈ items, it.recN.length = 12 ∧ itemOk it)
    (k : Nat) (hk : k < items.length) :
    ∃ V, storeAll cks (Vault.new H salts pwd) items = some V ∧
      read_item cks V k = some (items.get ⟨k, hk⟩).data := by
  rw [storeAll_new cks H salts pwd items (fun it hm => ⟨(hits it hm).2, (hits it hm).1⟩)]
  refine ⟨_, rfl, ?_⟩
  have hr := read_exp cks (gen_keys H salts pwd) items [] []
    (fun it hm => (hits it hm).1) k hk
  simpa using hr

/-- C1 witness: a concrete three-byte item stored and read back. -/
theorem c1_round_trip_witness :
    ∃ V, storeAll cksW (Vault.new HW SW []) [itW] = some V ∧
      read_item cksW V 0 = some itW.data :=
  c1_round_trip cksW HW SW [] [itW] (by decide) 0 (by decide)

/-- C2 counterexample: a vault built by one successful store of a 65-byte
name reopens to a record list whose name differs from the in-memory one
(64 bytes after silent truncation versus 65), so the claim as stated fails. -/
theorem c2_persistence_counterexample :
    storeAll cksW (Vault.new HW SW []) [itLong] = some VLong ∧
    load_record_table cksW keysW VLong.buffer = some [mkRecordLoaded itLong 0] ∧
    VLong.records.map Record.name = [List.replicate 65 97] ∧
    (mkRecordLoaded itLong 0).name = List.replicate 64 97 ∧
    (List.replicate 64 97 : Bytes) ≠ List.replicate 65 97 := by
  refine ⟨?_, ?_, by decide, by decide, by decide⟩
  · rw [storeAll_new cksW HW SW [] [itLong] (by decide), VLong]
    simp [expRecs, expBuf, keysW]
  · have h := load_expL cksW keysW [itLong] (block cksW keysW itLong) 0 []
      (by rw [List.drop_zero]; simp [expBuf]) (by decide)
    simpa [load_record_table, VLong, expRecsLoaded] using h

/-- C2 amended: for every vault built by a sequence of successful stores
whose names fit in 64 bytes after NUL-stripping (and whose nonces are the
usual 12 random bytes), closing and reopening with the same password yields
an equal record list — same names, sizes, timestamps, nonces and offsets in
order — and read_item of each index returns the same payload as before. -/
theorem c2_persistence_amended (cks : Bytes → Bytes → Nat → Nat) (H : Bytes → Bytes)
    (salts : List Bytes) (pwd : Bytes) (items : List StoredItem)
    (hits : ∀ it ∈ items, it.recN.length = 12 ∧ it.payN.length = 12 ∧ itemOk it ∧
      (strip0 it.name).length ≤ 64) :
    ∃ V W, storeAll cks (Vault.new H salts pwd) items = some V ∧
      from_buffer cks H salts pwd V.buffer = some W ∧
      W.records = V.records ∧ W.buffer = V.buffer ∧
      ∀ i, read_item cks W i = read_item cks V i := by
  rw [storeAll_new cks H salts pwd items (fun it hm => ⟨(hits it hm).2.2.1, (hits it hm).1⟩)]
  refine ⟨⟨expRecs 0 items, expBuf cks (gen_keys H salts pwd) items, gen_keys H salts pwd⟩,
    ⟨expRecs 0 items, expBuf cks (gen_keys H salts pwd) items, gen_keys H salts pwd⟩,
    rfl, ?_, rfl, rfl, fun i => rfl⟩
  rw [from_buffer, load_record_table,
    load_exp cks (gen_keys H salts pwd) items _ 0 [] (by rw [List.drop_zero]) hits,
    Option.map_some', List.nil_append]

/-- C2 witness: a concrete single store, reopened. -/
theorem c2_persistence_witness :
    ∃ V W, storeAll cksW (Vault.new HW SW []) [itW] = some V ∧
      from_buffer cksW HW SW [] V.buffer = some W ∧
      W.records = V.records ∧ W.buffer = V.buffer ∧
      ∀ i, read_item cksW W i = read_item cksW V i :=
  c2_persistence_amended cksW HW SW [] [itW] (by decide)

/-- C3 counterexample: the name 0x00 0x61 is at most 64 bytes and has no
trailing NUL, yet after a store and reload the record's name is 0x61: the
load-time normalization also strips the leading NUL. -/
theorem c3_name_counterexample :
    store_item cksW (Vault.new HW SW []) itLead = some VLead ∧
    load_record_table cksW keysW VLead.buffer = some [mkRecord itLead 0] ∧
    itLead.name = [0, 97] ∧ (mkRecord itLead 0).name = [97] ∧
    ([97] : Bytes) ≠ [0, 97] := by
  refine ⟨?_, ?_, rfl, by decide, by decide⟩
  · rw [store_new cksW HW SW [] itLead (by decide) (by decide), VLead, keysW]
  · have h := load_exp cksW keysW [itLead] (block cksW keysW itLead) 0 []
      (by rw [List.drop_zero]; simp [expBuf]) (by decide)
    simpa [load_record_table, VLead, expRecs] using h

/-- C3 amended: name normalization strips NUL bytes from both ends, not
only trailing ones; for every name N of at most 64 bytes with no leading
and no trailing NUL (strip0 N = N), storing an item under N and reloading
the record from disk yields a record whose name equals N. -/
theorem c3_name_amended (cks : Bytes → Bytes → Nat → Nat) (H : Bytes → Bytes)
    (salts : List Bytes) (pwd : Bytes) (it : StoredItem)
    (hname : strip0 it.name = it.name) (hlen : it.name.length ≤ 64)
    (h12 : it.recN.length = 12) (hp12 : it.payN.length = 12) (hok : itemOk it) :
    ∃ V recs, store_item cks (Vault.new H salts pwd) it = some V ∧
      load_record_table cks (gen_keys H salts pwd) V.buffer = some recs ∧
      recs.map Record.name = [it.name] := by
  rw [store_new cks H salts pwd it hok h12]
  refine ⟨_, [mkRecord it 0], rfl, ?_, ?_⟩
  · have h := load_exp cks (gen_keys H salts pwd) [it] (block cks (gen_keys H salts pwd) it)
      0 [] (by rw [List.drop_zero]; simp [expBuf])
      (fun x hx => by
        rw [List.mem_singleton] at hx
        subst hx
        exact ⟨h12, hp12, hok, by rw [hname]; exact hlen⟩)
    simpa [load_record_table, expRecs] using h
  · simp [mkRecord, hname]

/-- C3 witness: a plain two-byte name survives the round trip. -/
theorem c3_name_witness :
    ∃ V recs, store_item cksW (Vault.new HW SW []) itW = some V ∧
      load_record_table cksW (gen_keys HW SW []) V.buffer = some recs ∧
      recs.map Record.name = [itW.name] :=
  c3_name_amended cksW HW SW [] itW (by decide) (by decide) (by decide) (by decide) (by decide)

/-- C4 counterexample: dumping a record whose name is 65 bytes long
succeeds (no validation error is raised) and the packed name field is the
silent 64-byte truncation. -/
theorem c4_long_name_counterexample :
    (Record.dump cksW keysW (Record.make (List.replicate 12 0) (List.replicate 12 0)
      (List.replicate 65 97) 0 0)).isSome = true ∧
    packBytes 64 (List.replicate 65 97) = List.replicate 64 97 ∧
    (List.replicate 64 97 : Bytes) ≠ List.replicate 65 97 := by
  refine ⟨by decide, by decide, by decide⟩

/-- C4 amended: record serialization never rejects a long name: whenever
data_size and timestamp are in struct range, Record.dump succeeds even for
a name longer than 64 bytes, and the 64-byte name field silently keeps only
the first 64 bytes of the name. -/
theorem c4_long_name_amended (cks : Bytes → Bytes → Nat → Nat) (keys : List Bytes)
    (r : Record) (hsz : r.data_size < 2 ^ 64) (hts1 : -(2 : Int) ^ 63 ≤ r.timestamp)
    (hts2 : r.timestamp < 2 ^ 63) (hlong : 64 < r.name.length) :
    Record.dump cks keys r =
      some (r.rec_nonce ++ encMsg cks keys r.rec_nonce
        (packFields r.nonce r.name r.data_size r.timestamp)) ∧
    packBytes 64 r.name = r.name.take 64 := by
  constructor
  · rw [Record.dump, structPack, if_pos ⟨hsz, hts1, hts2⟩, Option.map_some', encMsg]
  · rw [packBytes, show 64 - r.name.length = 0 by omega]
    simp

/-- C4 witness: the amended statement at a concrete 70-byte name. -/
theorem c4_long_name_witness :
    Record.dump cksW keysW ⟨[3], [4], List.replicate 70 98, 1, 2, 0⟩ =
      some ([3] ++ encMsg cksW keysW [3]
        (packFields [4] (List.replicate 70 98) 1 2)) ∧
    packBytes 64 (List.replicate 70 98) = (List.replicate 70 98).take 64 :=
  c4_long_name_amended cksW keysW ⟨[3], [4], List.replicate 70 98, 1, 2, 0⟩
    (by decide) (by decide) (by decide) (by decide)

/-- C5: for every vault, every valid record index and every chunk size of
at least 1, the concatenation of the chunks yielded by read_chunks equals
read_item of the same index. -/
theorem c5_chunk_equiv (cks : Bytes → Bytes → Nat → Nat) (v : Vault) (i s : Nat)
    (hs : 1 ≤ s) (r : Record) (hr : v.records[i]? = some r) :
    ∃ cs, read_chunks cks v i s = some cs ∧ read_item cks v i = some cs.flatten := by
  refine ⟨chunkLoop v.buffer r.data_ptr r.data_size s 0 (renew cks v.keys r.nonce), ?_, ?_⟩
  · rw [read_chunks, if_neg (by omega : ¬ s = 0), hr, Option.map_some']
  · rw [read_item, hr, Option.map_some']
    have h := chunkLoop_flatten v.buffer r.data_ptr r.data_size s (by omega) r.data_size 0
      (renew cks v.keys r.nonce) (by omega)
    rw [Nat.add_zero, Nat.sub_zero] at h
    rw [h]

/-- C5 witness: a concrete vault read in one-byte chunks. -/
theorem c5_chunk_equiv_witness :
    ∃ cs, read_chunks cksW vW 0 1 = some cs ∧ read_item cksW vW 0 = some cs.flatten :=
  c5_chunk_equiv cksW vW 0 1 (by decide) rW (by decide)

/-- C6: key derivation is a pure total function of the password: for each
of the 8 salts it computes SHA3-256(password ++ salt) followed by exactly
1000 iterations of re-hashing, yielding an 8-tuple of 32-byte keys; being a
function, the same password always yields the identical tuple. -/
theorem c6_key_derivation (H : Bytes → Bytes) (salts : List Bytes) (pwd : Bytes)
    (hN : salts.length = 8) (h32 : ∀ b, (H b).length = 32) :
    gen_keys H salts pwd = salts.map (fun salt => H^[1000] (H (pwd ++ salt))) ∧
    (gen_keys H salts pwd).length = 8 ∧
    ∀ k ∈ gen_keys H salts pwd, k.length = 32 := by
  have hfold : ∀ (n : Nat) (x : Bytes), (List.range n).foldl (fun h _ => H h) x = H^[n] x := by
    intro n
    induction n with
    | zero => intro x; rfl
    | succ m ih =>
      intro x
      rw [List.range_succ, List.foldl_append, ih, Function.iterate_succ_apply',
        List.foldl_cons, List.foldl_nil]
  have hgen : gen_keys H salts pwd = salts.map (fun salt => H^[1000] (H (pwd ++ salt))) := by
    rw [gen_keys]
    simp only [hfold]
  have hitlen : ∀ (n : Nat) (y : Bytes), (H^[n] (H y)).length = 32 := by
    intro n
    induction n with
    | zero => intro y; exact h32 y
    | succ m ih =>
      intro y
      rw [Function.iterate_succ_apply']
      exact h32 _
  refine ⟨hgen, ?_, ?_⟩
  · rw [hgen, List.length_map, hN]
  · intro k hk
    rw [hgen] at hk
    simp only [List.mem_map] at hk
    obtain ⟨salt, _, heq⟩ := hk
    rw [← heq]
    exact hitlen 1000 (pwd ++ salt)

/-- C6 witness: a concrete 32-byte hash over the reference salt table. -/
theorem c6_key_derivation_witness :
    gen_keys (fun _ => List.replicate 32 0) SW [] =
      SW.map (fun salt => (fun _ => List.replicate 32 (0 : Nat))^[1000]
        ((fun _ => List.replicate 32 (0 : Nat)) ([] ++ salt))) ∧
    (gen_keys (fun _ => List.replicate 32 0) SW []).length = 8 ∧
    ∀ k ∈ gen_keys (fun _ => List.replicate 32 0) SW [], k.length = 32 :=
  c6_key_derivation (fun _ => List.replicate 32 0) SW [] (by decide)
    (fun b => by simp)

/-- C7: every renew call returns a composite cipher whose layers are, in
index order, a ChaCha20 instance per key sharing the given nonce, all at
position 0; encrypt and decrypt pass data through the layers in that same
order, and decrypting a fresh encryption under the same nonce restores the
message. -/
theorem c7_cipher_renew (cks : Bytes → Bytes → Nat → Nat) (keys : List Bytes)
    (nonce m : Bytes) :
    (renew cks keys nonce).layers = keys.map (fun k => ⟨cks k nonce, 0⟩) ∧
    (∀ st ∈ (renew cks keys nonce).layers, st.pos = 0) ∧
    ((renew cks keys nonce).decrypt ((renew cks keys nonce).encrypt m).1).1 = m := by
  refine ⟨rfl, ?_, ?_⟩
  · intro st hst
    rw [renew] at hst
    simp only [List.mem_map] at hst
    obtain ⟨k, _, hk⟩ := hst
    rw [← hk]
  · simp only [Cipher.encrypt, Cipher.decrypt]
    exact runLayers_cancel _ m

/-- C8: after every successful store, buffer_end equals the sum over all
records of 104 + data_size, and buffer_end is computed solely from the
in-memory record list: it does not change when the backing buffer does. -/
theorem c8_offset_invariant (cks : Bytes → Bytes → Nat → Nat) (v v2 : Vault)
    (chunks : List Bytes) (name payN recN : Bytes) (ts : Int)
    (h : store_chunks cks v chunks name payN recN ts = some v2) :
    v2.buffer_end = (v2.records.map (fun r => FULL_SIZE + r.data_size)).sum ∧
    ∀ B : Bytes, Vault.buffer_end ⟨v2.records, B, v2.keys⟩ = v2.buffer_end := by
  exact ⟨buffer_end_eq_sum v2, fun B => rfl⟩

/-- C8 witness: a concrete successful store. -/
theorem c8_offset_invariant_witness :
    ∃ v2, store_chunks cksW ⟨[], [], [[3]]⟩ [[7]] [65] (List.replicate 12 0)
        (List.replicate 12 0) 0 = some v2 ∧
      (v2.buffer_end = (v2.records.map (fun r => FULL_SIZE + r.data_size)).sum ∧
        ∀ B : Bytes, Vault.buffer_end ⟨v2.records, B, v2.keys⟩ = v2.buffer_end) := by
  have hsome : (store_chunks cksW ⟨[], [], [[3]]⟩ [[7]] [65] (List.replicate 12 0)
      (List.replicate 12 0) 0).isSome = true := by decide
  obtain ⟨v2, hv2⟩ := Option.isSome_iff_exists.mp hsome
  exact ⟨v2, hv2, c8_offset_invariant cksW ⟨[], [], [[3]]⟩ v2 [[7]] [65]
    (List.replicate 12 0) (List.replicate 12 0) 0 hv2⟩

/-- C9 counterexample: a buffer holding exactly one dumped header whose
data_size is 100 with no payload behind it loads without any error: the
scan returns the impossible record and terminates silently. -/
theorem c9_overrun_counterexample :
    load_record_table cksW keysW (List.replicate 12 9 ++ c9body) =
      some [Record.load cksW keysW (List.replicate 12 9) c9body FULL_SIZE] ∧
    (Record.load cksW keysW (List.replicate 12 9) c9body FULL_SIZE).data_size = 100 ∧
    (List.replicate 12 9 ++ c9body).length = 104 ∧
    104 < (Record.load cksW keysW (List.replicate 12 9) c9body FULL_SIZE).data_ptr +
      (Record.load cksW keysW (List.replicate 12 9) c9body FULL_SIZE).data_size := by
  have h92 : c9body.length = RECORD_SIZE := by
    rw [c9body, length_encMsg, length_packFields]
  have hsz : (Record.load cksW keysW (List.replicate 12 9) c9body FULL_SIZE).data_size
      = 100 := by
    simp only [Record.load, Record.make, c9body]
    have hdec := decMsg_encMsg cksW keysW (List.replicate 12 9)
      (packFields (List.replicate 12 8) [120] 100 0)
    rw [decMsg] at hdec
    rw [hdec, unpack_pack_size _ _ _ _ (by norm_num)]
  refine ⟨load_single cksW keysW _ _ (by decide) h92, hsz, ?_, ?_⟩
  · rw [List.length_append, List.length_replicate, h92]
    rfl
  · rw [hsz]
    have hdp : (Record.load cksW keysW (List.replicate 12 9) c9body FULL_SIZE).data_ptr
        = FULL_SIZE := rfl
    rw [hdp]
    decide

/-- C9 amended: when a decoded record's data_size exceeds the bytes
remaining after its header, the load does NOT signal an error: the seek
past the end makes the next 12-byte read empty, the scan terminates
silently, and the impossible record stays in the returned list. -/
theorem c9_overrun_amended (cks : Bytes → Bytes → Nat → Nat) (keys : List Bytes)
    (r : Record) (h12 : r.rec_nonce.length = 12) (hsz : r.data_size < 2 ^ 64)
    (hts1 : -(2 : Int) ^ 63 ≤ r.timestamp) (hts2 : r.timestamp < 2 ^ 63)
    (hpos : 0 < r.data_size) :
    ∃ B r2, Record.dump cks keys r = some B ∧
      load_record_table cks keys B = some [r2] ∧
      r2.data_size = r.data_size ∧ B.length < r2.data_ptr + r2.data_size := by
  have hdump : Record.dump cks keys r = some (r.rec_nonce ++
      encMsg cks keys r.rec_nonce (packFields r.nonce r.name r.data_size r.timestamp)) := by
    rw [Record.dump, structPack, if_pos ⟨hsz, hts1, hts2⟩, Option.map_some', encMsg]
  have h92 : (encMsg cks keys r.rec_nonce
      (packFields r.nonce r.name r.data_size r.timestamp)).length = RECORD_SIZE := by
    rw [length_encMsg, length_packFields]
  have hds : (Record.load cks keys r.rec_nonce (encMsg cks keys r.rec_nonce
      (packFields r.nonce r.name r.data_size r.timestamp)) FULL_SIZE).data_size
      = r.data_size := by
    simp only [Record.load, Record.make]
    have hdec := decMsg_encMsg cks keys r.rec_nonce
      (packFields r.nonce r.name r.data_size r.timestamp)
    rw [decMsg] at hdec
    rw [hdec, unpack_pack_size _ _ _ _ hsz]
  refine ⟨_, _, hdump, load_single cks keys _ _ h12 h92, hds, ?_⟩
  have hdp : (Record.load cks keys r.rec_nonce (encMsg cks keys r.rec_nonce
      (packFields r.nonce r.name r.data_size r.timestamp)) FULL_SIZE).data_ptr
      = FULL_SIZE := rfl
  rw [hdp, hds, List.length_append, h12, h92]
  have : (12 : Nat) + RECORD_SIZE = FULL_SIZE := rfl
  rw [this]
  omega

/-- C9 witness: the amended statement at a concrete record. -/
theorem c9_overrun_witness :
    ∃ B r2, Record.dump cksW keysW ⟨List.replicate 12 9, List.replicate 12 8, [120], 100,
        0, 0⟩ = some B ∧
      load_record_table cksW keysW B = some [r2] ∧
      r2.data_size = 100 ∧ B.length < r2.data_ptr + r2.data_size :=
  c9_overrun_amended cksW keysW ⟨List.replicate 12 9, List.replicate 12 8, [120], 100, 0, 0⟩
    (by decide) (by decide) (by decide) (by decide) (by decide)

/-- C10: tombstoning a record blanks its name, sets its timestamp to the
current time, and changes nothing else: the nonces, data_size and data_ptr
are untouched; at the vault level the record stays at its index, all other
records are untouched, and no byte of the backing buffer is rewritten. -/
theorem c10_tombstone (r : Record) (now : Int) (v : Vault) (i : Nat)
    (h : i < v.records.length) :
    (r.delete now).name = [] ∧ (r.delete now).timestamp = now ∧
    (r.delete now).rec_nonce = r.rec_nonce ∧ (r.delete now).nonce = r.nonce ∧
    (r.delete now).data_size = r.data_size ∧ (r.delete now).data_ptr = r.data_ptr ∧
    ∃ v2, tombstone v i now = some v2 ∧
      v2.buffer = v.buffer ∧ v2.keys = v.keys ∧
      v2.records.length = v.records.length ∧
      v2.records[i]? = (v.records[i]?).map (fun x => x.delete now) ∧
      ∀ j, j ≠ i → v2.records[j]? = v.records[j]? := by
  refine ⟨rfl, rfl, rfl, rfl, rfl, rfl, ?_⟩
  rw [tombstone, List.getElem?_eq_getElem h, Option.map_some']
  refine ⟨_, rfl, rfl, rfl, by simp [List.length_set], ?_, ?_⟩
  · rw [List.getElem?_set_self (by simpa using h), Option.map_some']
  · intro j hj
    exact List.getElem?_set_ne (Ne.symm hj)

/-- C10 witness: tombstoning the only record of a concrete vault. -/
theorem c10_tombstone_witness :
    (rW.delete 42).name = [] ∧ (rW.delete 42).timestamp = 42 ∧
    (rW.delete 42).rec_nonce = rW.rec_nonce ∧ (rW.delete 42).nonce = rW.nonce ∧
    (rW.delete 42).data_size = rW.data_size ∧ (rW.delete 42).data_ptr = rW.data_ptr ∧
    ∃ v2, tombstone vW 0 42 = some v2 ∧
      v2.buffer = vW.buffer ∧ v2.keys = vW.keys ∧
      v2.records.length = vW.records.length ∧
      v2.records[0]? = (vW.records[0]?).map (fun x => x.delete 42) ∧
      ∀ j, j ≠ 0 → v2.records[j]? = vW.records[j]? :=
  c10_tombstone rW 42 vW 0 (by decide)

end Vaults
